import Mathlib

/-!
Verification of the `tfam-kit` FASTA toolkit (`src/tfam-kit.py`), as a
shallow embedding in Lean 4.

Python strings are modelled as `List Char` (`PyStr`).  A FASTA record is a
Python list that always starts `[header, sequence]`; the statistics action
appends integer cells after those two, so a record is modelled as a structure
with the two string fields plus the list of appended integer cells (`extra`,
empty for every record the parser builds).  Fallible Python code (IndexError,
TypeError) is modelled with `Option` / an `err` result.  Python's `str.upper`
/ `str.lower` are modelled on the ASCII range via `Char.toUpper` /
`Char.toLower` (FASTA data is ASCII); terminal-colour styling (`termcolor`)
is modelled as absent, i.e. the plain-text output path of `printer`.
-/

namespace Tfam

/-- A Python string, as its list of characters. -/
abbrev PyStr := List Char

/-- Lean string literal to `PyStr`. -/
def pstr (s : String) : PyStr := s.data

/-- The characters stripped by Python `str.strip()` (ASCII whitespace). -/
def isSpc (c : Char) : Bool :=
  c = ' ' || c = '\t' || c = '\n' || c = '\r' || c = '\x0b' || c = '\x0c'

/-- Remove trailing whitespace (the right half of Python `str.strip()`). -/
def dropTrail (s : PyStr) : PyStr := (s.reverse.dropWhile isSpc).reverse

/-- Python `str.strip()`. -/
def pyStrip (s : PyStr) : PyStr := dropTrail (s.dropWhile isSpc)

/-- Python `str(n)` for a non-negative int. -/
def natToPyStr (n : Nat) : PyStr := (Nat.repr n).data

/-- One FASTA entry of `tfam-kit`: the Python list `[header, sequence]`,
plus the integer cells appended after index 1 by `InfoN50` (`extra`,
`[]` for a freshly parsed record). -/
structure Rec where
  header : PyStr
  seq : PyStr
  extra : List Nat
deriving DecidableEq, Repr

/-- Concatenation of a list of lists (`''.join` and friends). -/
def flat {α : Type} : List (List α) → List α
  | [] => []
  | l :: ls => l ++ flat ls

/-- `''.join(accu).replace('\n', '').replace('\r', '')` applied to the
accumulated sequence lines. -/
def cleanSeq (accu : List PyStr) : PyStr :=
  ((flat accu).filter (fun c => decide (c ≠ '\n'))).filter (fun c => decide (c ≠ '\r'))

/-- The loop of `fasta_reader`: walks the raw lines (the dummy `'>\n'`
already appended), maintaining the entry list and the sequence accumulator.
`none` models the IndexError raised on a zero-length line (`line[0]`) and on
`fasta_entries[-1]` when no entry exists yet. -/
def fastaLoop : List PyStr → List Rec → List PyStr → Option (List Rec)
  | [], entries, _ => some entries
  | line :: rest, entries, accu =>
    match line with
    | [] => none
    | c :: cs =>
      if c = '>' then
        if accu = [] then
          fastaLoop rest (entries ++ [⟨pyStrip cs, [], []⟩]) []
        else
          match entries.getLast? with
          | none => none
          | some lastRec =>
            fastaLoop rest
              (entries.dropLast ++ [⟨lastRec.header, cleanSeq accu, lastRec.extra⟩,
                ⟨pyStrip cs, [], []⟩]) []
      else
        fastaLoop rest entries (accu ++ [line])

/-- `fasta_reader`: append the dummy `'>\n'` entry, run the loop, and drop
the dummy record (`fasta_entries[:-1]`). -/
def fastaReader (lines : List PyStr) : Option (List Rec) :=
  (fastaLoop (lines ++ [['>', '\n']]) [] []).map List.dropLast

/-- The loop of `load_filter_dict`: strip each line, drop a leading `'>'`,
insert the name as a dict key.  `none` models the IndexError raised by
`filter_item[0]` on a line that strips to the empty string.  The dict is
modelled by its (deduplicated, membership-relevant) key list. -/
def filterLoop : List PyStr → List PyStr → Option (List PyStr)
  | [], acc => some acc
  | line :: rest, acc =>
    match pyStrip line with
    | [] => none
    | c :: cs =>
      let item := if c = '>' then cs else c :: cs
      filterLoop rest (if item ∈ acc then acc else acc ++ [item])

/-- `load_filter_dict` on the lines of the filter-list file. -/
def loadFilterDict (lines : List PyStr) : Option (List PyStr) :=
  filterLoop lines []

/-- `write_fasta` (plain-text `printer` path): for each record emit
`'>' + header + '\n' + sequence + '\n'`. -/
def writeFasta (rs : List Rec) : PyStr :=
  flat (rs.map fun r => '>' :: r.header ++ '\n' :: r.seq ++ ['\n'])

/-- Split a text into `readlines`-style lines (terminators kept, a final
unterminated fragment kept if non-empty); `acc` is the reversed pending
fragment. -/
def toLinesAux : PyStr → PyStr → List PyStr
  | [], acc => if acc = [] then [] else [acc.reverse]
  | c :: rest, acc =>
    if c = '\n' then (acc.reverse ++ ['\n']) :: toLinesAux rest []
    else toLinesAux rest (c :: acc)

/-- `readlines` on a text: the list of its lines. -/
def toLines (s : PyStr) : List PyStr := toLinesAux s []

/-- The `**options` bag passed to every action; `.get` on a missing key is
`none`.  Field `pfx` models the Python key `prefix`. -/
structure Options where
  filter_dict : Option (List PyStr)
  pfx : Option PyStr
deriving DecidableEq

/-- Result of running one registered action: normal return (with the
possibly mutated entry list), `exit(0)` after printing a report, or an
uncaught exception. -/
inductive ActionOut where
  | ok (records : List Rec)
  | exited (records : List Rec) (report : List PyStr)
  | err
deriving DecidableEq

/-- The entry list held by an `ActionOut` (empty on an exception). -/
def recordsOf : ActionOut → List Rec
  | .ok rs => rs
  | .exited rs _ => rs
  | .err => []

/-- `EntryUppercase`: uppercase every sequence in place. -/
def EntryUppercase (rs : List Rec) (_o : Options) : ActionOut :=
  .ok (rs.map fun r => ⟨r.header, r.seq.map Char.toUpper, r.extra⟩)

/-- `EntryLowercase`: lowercase every sequence in place. -/
def EntryLowercase (rs : List Rec) (_o : Options) : ActionOut :=
  .ok (rs.map fun r => ⟨r.header, r.seq.map Char.toLower, r.extra⟩)

/-- `ListRemove`: keep the entries whose header is not a key of
`filter_dict`.  With the key absent, Python's `x not in None` raises a
TypeError at the first entry (no entry: the loop never runs). -/
def ListRemove (rs : List Rec) (o : Options) : ActionOut :=
  match o.filter_dict with
  | none => if rs = [] then .ok [] else .err
  | some f => .ok (rs.filter fun r => decide (r.header ∉ f))

/-- `ListKeep`: keep the entries whose header is a key of `filter_dict`. -/
def ListKeep (rs : List Rec) (o : Options) : ActionOut :=
  match o.filter_dict with
  | none => if rs = [] then .ok [] else .err
  | some f => .ok (rs.filter fun r => decide (r.header ∈ f))

/-- The renumbering loop of `EntryRenumerate`: entry `i` (0-based) gets
header `prefix + str(n + i)`. -/
def renumFrom (p : PyStr) (n : Nat) : List Rec → List Rec
  | [] => []
  | r :: rest => ⟨p ++ natToPyStr n, r.seq, r.extra⟩ :: renumFrom p (n + 1) rest

/-- `EntryRenumerate`: replace every header by `prefix + str(increment)`,
increment starting at 1.  A missing prefix key gives `None + str(...)`, a
TypeError at the first entry. -/
def EntryRenumerate (rs : List Rec) (o : Options) : ActionOut :=
  match o.pfx with
  | none => if rs = [] then .ok [] else .err
  | some p => .ok (renumFrom p 1 rs)

/-- `input_entries[i].append(len(input_entries[i][1]))`: the cell appended
by the first loop of `InfoN50`. -/
def annotateRec (r : Rec) : Rec := ⟨r.header, r.seq, r.extra ++ [r.seq.length]⟩

/-- The Python expression `x[2]`: the first cell after header and sequence. -/
def extraKey (r : Rec) : Nat := r.extra.getD 0 0

/-- The Python expression `x[-1]`: the last cell of the entry. -/
def lastKey (r : Rec) : Nat := r.extra.getLastD 0

/-- Stable insertion of `a` into `l`: `a` goes before the first element it
relates to by `le`. -/
def ordIns (le : Rec → Rec → Bool) (a : Rec) : List Rec → List Rec
  | [] => [a]
  | b :: l => if le a b then a :: b :: l else b :: ordIns le a l

/-- Stable insertion sort; with `le a b = (key b ≤ key a)` this is the
unique stable descending sort, the behaviour of Python
`sorted(-, key=-, reverse=True)`. -/
def insSort (le : Rec → Rec → Bool) : List Rec → List Rec
  | [] => []
  | a :: l => ordIns le a (insSort le l)

/-- Descending comparison used by `InfoN50`: key `x[2]`. -/
def n50Desc (a b : Rec) : Bool := decide (extraKey b ≤ extraKey a)

/-- First record of `l` at which the running sum of keys strictly exceeds
`total / 2` (exact: `2 * sum > total`); `acc` is the running sum so far. -/
def n50FindK (key : Rec → Nat) : List Rec → Nat → Nat → Option Rec
  | [], _, _ => none
  | r :: rest, total, acc =>
    if total < 2 * (acc + key r) then some r
    else n50FindK key rest total (acc + key r)

/-- The single report line printed by `InfoN50`:
`'N50' + tab + x[2] + tab + x[0]`. -/
def n50LineOf (r : Rec) : PyStr :=
  pstr "N50\t" ++ natToPyStr (extraKey r) ++ pstr "\t" ++ r.header

/-- `InfoN50`: append each entry's sequence length as a new cell while
summing the lengths, then scan the entries sorted by `x[2]` descending; at
the first entry whose running sum strictly exceeds half the total, print the
`N50` line and `exit(0)`.  If no entry crosses (total 0), the function falls
through and returns normally. -/
def InfoN50 (rs : List Rec) (_o : Options) : ActionOut :=
  let ann := rs.map annotateRec
  let total := (ann.map lastKey).sum
  match n50FindK extraKey (insSort n50Desc ann) total 0 with
  | some r => .exited ann [n50LineOf r]
  | none => .ok ann

/-- `InfoEntryLength`: print `header + tab + len(sequence)` for every entry,
then `exit(0)`. -/
def InfoEntryLength (rs : List Rec) (_o : Options) : ActionOut :=
  .exited rs (rs.map fun r => r.header ++ '\t' :: natToPyStr r.seq.length)

/-- The `ACTIONS` registry. -/
def ACTIONS : List (String × (List Rec → Options → ActionOut)) :=
  [("upper", EntryUppercase),
   ("lower", EntryLowercase),
   ("remove", ListRemove),
   ("keep", ListKeep),
   ("renumerate", EntryRenumerate),
   ("N50", InfoN50),
   ("len", InfoEntryLength)]

/-- Observable outcome of one run of the `__main__` script. -/
structure RunResult where
  exitCode : Nat
  records : List Rec
  report : List PyStr
  writerInvoked : Bool
  writtenText : PyStr
  outputFileCreated : Bool
deriving DecidableEq

/-- The `__main__` script: parse the input, load the optional filter list,
open the output file (created/truncated as soon as `--out` is given), look
the action up in `ACTIONS` (a missing key raises, exit code 1), run it, and
unless it exited, serialize the records with `write_fasta`. -/
def runMain (action : String) (inputLines : List PyStr)
    (filterLines : Option (List PyStr)) (outGiven : Bool)
    (pfxArg : Option PyStr) : RunResult :=
  match fastaReader inputLines with
  | none => ⟨1, [], [], false, [], false⟩
  | some fastaData =>
    match (match filterLines with
           | none => some []
           | some fl => loadFilterDict fl) with
    | none => ⟨1, fastaData, [], false, [], false⟩
    | some fdict =>
      let created := outGiven
      let opts : Options := ⟨some fdict, some (pfxArg.getD (pstr "seq"))⟩
      match ACTIONS.find? (fun kv => kv.1 == action) with
      | none => ⟨1, fastaData, [], false, [], created⟩
      | some kv =>
        match kv.2 fastaData opts with
        | .err => ⟨1, fastaData, [], false, [], created⟩
        | .exited recs out => ⟨0, recs, out, false, [], created⟩
        | .ok recs => ⟨0, recs, [], true, writeFasta recs, created⟩

/-- Parse, re-serialize, re-parse: the round-trip of claim C2. -/
def roundTripParse (lines : List PyStr) : Option (List Rec) :=
  (fastaReader lines).bind fun rs => fastaReader (toLines (writeFasta rs))

/-! ### Helper lemmas: characters -/

theorem toNat_ofNat_valid (n : Nat) (h : n.isValidChar) :
    (Char.ofNat n).toNat = n := by
  rw [Char.ofNat, dif_pos h]
  rfl

theorem toLower_toUpper (c : Char) : c.toUpper.toLower = c.toLower := by
  by_cases h : 97 ≤ c.toNat ∧ c.toNat ≤ 122
  · have hv : (c.toNat - 32).isValidChar := Or.inl (by omega)
    have ht : (Char.ofNat (c.toNat - 32)).toNat = c.toNat - 32 :=
      toNat_ofNat_valid _ hv
    simp only [Char.toUpper, Char.toLower, if_pos h, ht]
    rw [if_pos (by omega), if_neg (by omega)]
    have : c.toNat - 32 + 32 = c.toNat := by omega
    rw [this, Char.ofNat_toNat]
  · simp only [Char.toUpper, if_neg h]

/-! ### Helper lemmas: `pyStrip` -/

theorem dropWhile_head?_not {p : Char → Bool} :
    ∀ {l : PyStr} {c : Char}, (l.dropWhile p).head? = some c → p c = false
  | [], c, h => by simp [List.dropWhile] at h
  | a :: l, c, h => by
    by_cases ha : p a
    · rw [List.dropWhile_cons_of_pos ha] at h
      exact dropWhile_head?_not h
    · rw [List.dropWhile_cons_of_neg ha] at h
      simp only [List.head?_cons, Option.some.injEq] at h
      subst h
      exact Bool.eq_false_iff.mpr ha

theorem dropWhile_eq_self_of_head? {p : Char → Bool} {l : PyStr}
    (h : ∀ c, l.head? = some c → p c = false) : l.dropWhile p = l := by
  cases l with
  | nil => rfl
  | cons a t => exact List.dropWhile_cons_of_neg (by simp [h a rfl])

/-- `dropTrail` produces a prefix of its argument. -/
theorem dropTrail_isPre (s : PyStr) : dropTrail s <+: s := by
  have := List.dropWhile_suffix (l := s.reverse) isSpc
  have h2 : (s.reverse.dropWhile isSpc).reverse <+: s.reverse.reverse :=
    List.reverse_prefix.mpr this
  simpa [dropTrail] using h2

theorem head?_of_pre {l s : PyStr} (h : l <+: s) {c : Char}
    (hc : l.head? = some c) : s.head? = some c := by
  rcases h with ⟨t, rfl⟩
  cases l with
  | nil => simp at hc
  | cons a l => simpa using hc

theorem dropTrail_head? {s : PyStr} {c : Char}
    (h : (dropTrail s).head? = some c) : s.head? = some c :=
  head?_of_pre (dropTrail_isPre s) h

theorem pyStrip_head? {s : PyStr} {c : Char}
    (h : (pyStrip s).head? = some c) : isSpc c = false :=
  dropWhile_head?_not (dropTrail_head? h)

theorem dropTrail_idem (s : PyStr) : dropTrail (dropTrail s) = dropTrail s := by
  unfold dropTrail
  rw [List.reverse_reverse]
  have : (s.reverse.dropWhile isSpc).dropWhile isSpc = s.reverse.dropWhile isSpc :=
    dropWhile_eq_self_of_head? fun c hc => dropWhile_head?_not hc
  rw [this]

theorem dropWhile_pyStrip (s : PyStr) :
    (pyStrip s).dropWhile isSpc = pyStrip s :=
  dropWhile_eq_self_of_head? fun _c hc => pyStrip_head? hc

theorem dropTrail_pyStrip' (s : PyStr) : dropTrail (pyStrip s) = pyStrip s :=
  dropTrail_idem (s.dropWhile isSpc)

theorem pyStrip_idem (s : PyStr) : pyStrip (pyStrip s) = pyStrip s := by
  show dropTrail ((pyStrip s).dropWhile isSpc) = pyStrip s
  rw [dropWhile_pyStrip]
  exact dropTrail_pyStrip' s

/-- Appending the newline that `write_fasta` prints after a header and
re-stripping gives the header back. -/
theorem pyStrip_append_newline (s : PyStr) :
    pyStrip (pyStrip s ++ ['\n']) = pyStrip s := by
  cases hq : pyStrip s with
  | nil =>
    simp only [List.nil_append]
    decide
  | cons a t =>
    have ha : isSpc a = false := pyStrip_head? (by rw [hq]; rfl)
    have h1 : ((a :: t) ++ ['\n']).dropWhile isSpc = (a :: t) ++ ['\n'] :=
      List.dropWhile_cons_of_neg (by simp [ha])
    have h2 : dropTrail ((a :: t) ++ ['\n']) = dropTrail (a :: t) := by
      unfold dropTrail
      rw [List.reverse_append]
      simp only [List.reverse_cons, List.reverse_nil, List.nil_append,
        List.singleton_append]
      rw [List.dropWhile_cons_of_pos (by decide)]
    have h3 : dropTrail (a :: t) = a :: t := by
      rw [← hq]
      exact dropTrail_pyStrip' s
    show dropTrail (((a :: t) ++ ['\n']).dropWhile isSpc) = a :: t
    rw [h1, h2, h3]

/-! ### Helper lemmas: `toLines` -/

theorem toLinesAux_append_line : ∀ (a b acc : PyStr), '\n' ∉ a →
    toLinesAux (a ++ '\n' :: b) acc = (acc.reverse ++ a ++ ['\n']) :: toLinesAux b []
  | [], b, acc, _ => by simp [toLinesAux]
  | c :: a, b, acc, ha => by
    have hc : ¬ c = '\n' := fun h => ha (by simp [h])
    have ih := toLinesAux_append_line a b (c :: acc) fun h => ha (List.mem_cons_of_mem _ h)
    simp only [List.cons_append, toLinesAux, if_neg hc, List.append_eq]
    rw [ih]
    simp [List.append_assoc]

/-- The two output lines of one record in `write_fasta`. -/
def recLines (r : Rec) : List PyStr :=
  [('>' :: r.header) ++ ['\n'], r.seq ++ ['\n']]

theorem writeFasta_cons (r : Rec) (rest : List Rec) :
    writeFasta (r :: rest) =
      ('>' :: r.header) ++ '\n' :: (r.seq ++ '\n' :: writeFasta rest) := by
  simp [writeFasta, flat, List.append_assoc]

theorem toLines_writeFasta : ∀ rs : List Rec, (∀ r ∈ rs, '\n' ∉ r.header) →
    (∀ r ∈ rs, '\n' ∉ r.seq) →
    toLines (writeFasta rs) = flat (rs.map recLines)
  | [], _, _ => rfl
  | r :: rest, hh, hs => by
    have hh0 : '\n' ∉ ('>' :: r.header) := by
      intro h
      rcases List.mem_cons.mp h with h | h
      · exact absurd h.symm (by decide)
      · exact hh r (List.mem_cons_self r rest) h
    have hs0 : '\n' ∉ r.seq := hs r (List.mem_cons_self r rest)
    have ih := toLines_writeFasta rest
      (fun x hx => hh x (List.mem_cons_of_mem _ hx))
      (fun x hx => hs x (List.mem_cons_of_mem _ hx))
    rw [toLines, writeFasta_cons, toLinesAux_append_line _ _ _ hh0,
      toLinesAux_append_line _ _ _ hs0, ← toLines, ih]
    simp [recLines, flat]

/-! ### Parser invariants -/

/-- Every record the parser builds satisfies this: the header is a
`pyStrip` fixed point, the sequence is free of line terminators, and no
integer cell has been appended yet. -/
def ParsedRec (r : Rec) : Prop :=
  pyStrip r.header = r.header ∧ '\n' ∉ r.seq ∧ '\r' ∉ r.seq ∧ r.extra = []

theorem cleanSeq_no_nl (accu : List PyStr) : '\n' ∉ cleanSeq accu := by
  intro h
  have := (List.mem_filter.mp (List.mem_filter.mp h).1).2
  simp at this

theorem cleanSeq_no_cr (accu : List PyStr) : '\r' ∉ cleanSeq accu := by
  intro h
  have := (List.mem_filter.mp h).2
  simp at this

theorem fastaLoop_inv (lines : List PyStr) :
    ∀ (entries : List Rec) (accu : List PyStr) (res : List Rec),
      fastaLoop lines entries accu = some res →
      (∀ r ∈ entries, ParsedRec r) → ∀ r ∈ res, ParsedRec r := by
  induction lines with
  | nil =>
    intro entries accu res h he
    simp only [fastaLoop, Option.some.injEq] at h
    exact h ▸ he
  | cons line rest ih =>
    intro entries accu res h he
    cases line with
    | nil => simp [fastaLoop] at h
    | cons c cs =>
      by_cases hc : c = '>'
      · by_cases hacc : accu = ([] : List PyStr)
        · simp only [fastaLoop, if_pos hc, if_pos hacc] at h
          refine ih _ _ _ h ?_
          intro r hr
          rcases List.mem_append.mp hr with hr | hr
          · exact he r hr
          · rcases List.mem_singleton.mp hr with rfl
            exact ⟨pyStrip_idem cs, by simp, by simp, rfl⟩
        · cases hL : entries.getLast? with
          | none => simp [fastaLoop, if_pos hc, if_neg hacc, hL] at h
          | some lastRec =>
            simp only [fastaLoop, if_pos hc, if_neg hacc, hL] at h
            refine ih _ _ _ h ?_
            intro r hr
            rcases List.mem_append.mp hr with hr | hr
            · exact he r (List.dropLast_subset entries hr)
            · have hlast : ParsedRec lastRec :=
                he lastRec (List.mem_of_getLast?_eq_some hL)
              rcases List.mem_cons.mp hr with rfl | hr
              · exact ⟨hlast.1, cleanSeq_no_nl accu, cleanSeq_no_cr accu, hlast.2.2.2⟩
              · rcases List.mem_singleton.mp hr with rfl
                exact ⟨pyStrip_idem cs, by simp, by simp, rfl⟩
      · simp only [fastaLoop, if_neg hc] at h
        exact ih _ _ _ h he

/-- Every record returned by `fasta_reader` is a `ParsedRec`. -/
theorem fastaReader_inv {lines : List PyStr} {rs : List Rec}
    (h : fastaReader lines = some rs) : ∀ r ∈ rs, ParsedRec r := by
  unfold fastaReader at h
  cases hL : fastaLoop (lines ++ [['>', '\n']]) [] [] with
  | none => rw [hL] at h; simp at h
  | some entries =>
    rw [hL] at h
    simp only [Option.map_some', Option.some.injEq] at h
    have := fastaLoop_inv _ _ _ _ hL (by simp)
    intro r hr
    exact this r (List.dropLast_subset entries (h ▸ hr))

/-! ### Re-parsing the Writer's own output -/


theorem fastaLoop_nil_lines (entries : List Rec) (accu : List PyStr) :
    fastaLoop [] entries accu = some entries := rfl

theorem fastaLoop_header_fresh (cs : PyStr) (rest : List PyStr) (entries : List Rec) :
    fastaLoop (('>' :: cs) :: rest) entries [] =
      fastaLoop rest (entries ++ [⟨pyStrip cs, [], []⟩]) [] := by
  simp [fastaLoop]

theorem fastaLoop_header_flush (cs : PyStr) (rest : List PyStr) (E : List Rec)
    (lastR : Rec) (a : PyStr) (acc : List PyStr) :
    fastaLoop (('>' :: cs) :: rest) (E ++ [lastR]) (a :: acc) =
      fastaLoop rest
        (E ++ [⟨lastR.header, cleanSeq (a :: acc), lastR.extra⟩, ⟨pyStrip cs, [], []⟩]) [] := by
  simp [fastaLoop, List.getLast?_concat, List.dropLast_concat]

theorem fastaLoop_seqline (c0 : Char) (t : PyStr) (rest : List PyStr)
    (entries : List Rec) (accu : List PyStr) (hc : ¬ c0 = '>') :
    fastaLoop ((c0 :: t) :: rest) entries accu =
      fastaLoop rest entries (accu ++ [c0 :: t]) := by
  simp [fastaLoop, hc]

theorem cleanSeq_single (s : PyStr) (h1 : '\n' ∉ s) (h2 : '\r' ∉ s) :
    cleanSeq [s ++ ['\n']] = s := by
  unfold cleanSeq
  rw [show flat [s ++ ['\n']] = s ++ ['\n'] from by simp [flat]]
  rw [List.filter_append]
  have e1 : List.filter (fun c => decide (c ≠ '\n')) ['\n'] = [] := rfl
  have e2 : List.filter (fun c => decide (c ≠ '\n')) s = s :=
    List.filter_eq_self.mpr fun a ha => by
      simp only [ne_eq, decide_not, Bool.not_eq_eq_eq_not, Bool.not_true,
        decide_eq_false_iff_not]
      exact fun h => h1 (h ▸ ha)
  rw [e1, e2, List.append_nil]
  exact List.filter_eq_self.mpr fun a ha => by
    simp only [ne_eq, decide_not, Bool.not_eq_eq_eq_not, Bool.not_true,
      decide_eq_false_iff_not]
    exact fun h => h2 (h ▸ ha)

/-- A record `write_fasta` can round-trip: a parsed record whose header has
no embedded newline and whose sequence does not begin with the marker. -/
def WritableRec (r : Rec) : Prop :=
  ParsedRec r ∧ '\n' ∉ r.header ∧ r.seq.head? ≠ some '>'

theorem pyStrip_header_newline {r : Rec} (h : ParsedRec r) :
    pyStrip (r.header ++ ['\n']) = r.header := by
  conv_lhs => rw [← h.1]
  rw [pyStrip_append_newline, h.1]

theorem fastaLoop_reparse :
    ∀ (rs : List Rec) (E : List Rec) (lastR : Rec) (s0 : PyStr),
    (∀ r ∈ rs, WritableRec r) → '\n' ∉ s0 → '\r' ∉ s0 →
    fastaLoop (flat (rs.map recLines) ++ [['>', '\n']]) (E ++ [lastR]) [s0 ++ ['\n']] =
      some (E ++ ⟨lastR.header, s0, lastR.extra⟩ :: (rs ++ [⟨[], [], []⟩]))
  | [], E, lastR, s0, _, h1, h2 => by
    simp only [List.map_nil, flat, List.nil_append]
    rw [show ((['>', '\n'] : PyStr) :: []) = ('>' :: ['\n']) :: [] from rfl,
      fastaLoop_header_flush, cleanSeq_single s0 h1 h2, fastaLoop_nil_lines,
      show pyStrip ['\n'] = [] from rfl]
  | r :: rest, E, lastR, s0, hw, h1, h2 => by
    have hwr : WritableRec r := hw r (List.mem_cons_self r rest)
    have hwrest : ∀ x ∈ rest, WritableRec x :=
      fun x hx => hw x (List.mem_cons_of_mem _ hx)
    have hline : flat ((r :: rest).map recLines) ++ [['>', '\n']] =
        ('>' :: (r.header ++ ['\n'])) :: (r.seq ++ ['\n']) ::
          (flat (rest.map recLines) ++ [['>', '\n']]) := by
      simp [recLines, flat, List.append_assoc]
    rw [hline, fastaLoop_header_flush, cleanSeq_single s0 h1 h2,
      pyStrip_header_newline hwr.1]
    -- the sequence line goes into the accumulator
    have hstep : fastaLoop ((r.seq ++ ['\n']) :: (flat (rest.map recLines) ++ [['>', '\n']]))
        (E ++ [⟨lastR.header, s0, lastR.extra⟩, ⟨r.header, [], []⟩]) [] =
        fastaLoop (flat (rest.map recLines) ++ [['>', '\n']])
          (E ++ [⟨lastR.header, s0, lastR.extra⟩, ⟨r.header, [], []⟩]) [r.seq ++ ['\n']] := by
      cases hsq : r.seq with
      | nil =>
        rw [show (([] : PyStr) ++ ['\n']) = '\n' :: [] from rfl,
          fastaLoop_seqline _ _ _ _ _ (by decide)]
        rfl
      | cons c0 t =>
        have hc0 : ¬ c0 = '>' := by
          intro h
          exact hwr.2.2 (by rw [hsq, h]; rfl)
        rw [show ((c0 :: t) ++ ['\n']) = c0 :: (t ++ ['\n']) from rfl,
          fastaLoop_seqline _ _ _ _ _ hc0]
        rfl
    rw [hstep,
      show E ++ [⟨lastR.header, s0, lastR.extra⟩, ⟨r.header, [], []⟩] =
        (E ++ [⟨lastR.header, s0, lastR.extra⟩]) ++ [(⟨r.header, [], []⟩ : Rec)] from by simp,
      fastaLoop_reparse rest _ _ r.seq hwrest hwr.1.2.1 hwr.1.2.2.1]
    have hre : (⟨r.header, r.seq, []⟩ : Rec) = r := by
      have hx : r.extra = [] := hwr.1.2.2.2
      cases r
      simp only at hx
      rw [hx]
    simp [List.append_assoc, hre]

/-- Parsing the Writer's own output reproduces the record set, for records
with newline-free headers and sequences not starting with the marker. -/
theorem fastaReader_writeFasta (rs : List Rec) (hw : ∀ r ∈ rs, WritableRec r) :
    fastaReader (toLines (writeFasta rs)) = some rs := by
  rw [toLines_writeFasta rs (fun r hr => (hw r hr).2.1)
    (fun r hr => (hw r hr).1.2.1)]
  cases rs with
  | nil => rfl
  | cons r rest =>
    have hwr : WritableRec r := hw r (List.mem_cons_self r rest)
    have hwrest : ∀ x ∈ rest, WritableRec x :=
      fun x hx => hw x (List.mem_cons_of_mem _ hx)
    unfold fastaReader
    have hline : flat ((r :: rest).map recLines) ++ [['>', '\n']] =
        ('>' :: (r.header ++ ['\n'])) :: (r.seq ++ ['\n']) ::
          (flat (rest.map recLines) ++ [['>', '\n']]) := by
      simp [recLines, flat, List.append_assoc]
    rw [hline, fastaLoop_header_fresh, pyStrip_header_newline hwr.1]
    have hstep : fastaLoop ((r.seq ++ ['\n']) :: (flat (rest.map recLines) ++ [['>', '\n']]))
        ([] ++ [⟨r.header, [], []⟩]) [] =
        fastaLoop (flat (rest.map recLines) ++ [['>', '\n']])
          ([] ++ [⟨r.header, [], []⟩]) [r.seq ++ ['\n']] := by
      cases hsq : r.seq with
      | nil =>
        rw [show (([] : PyStr) ++ ['\n']) = '\n' :: [] from rfl,
          fastaLoop_seqline _ _ _ _ _ (by decide)]
        rfl
      | cons c0 t =>
        have hc0 : ¬ c0 = '>' := by
          intro h
          exact hwr.2.2 (by rw [hsq, h]; rfl)
        rw [show ((c0 :: t) ++ ['\n']) = c0 :: (t ++ ['\n']) from rfl,
          fastaLoop_seqline _ _ _ _ _ hc0]
        rfl
    rw [hstep, fastaLoop_reparse rest [] ⟨r.header, [], []⟩ r.seq hwrest
      hwr.1.2.1 hwr.1.2.2.1]
    have hre : (⟨r.header, r.seq, []⟩ : Rec) = r := by
      have hx : r.extra = [] := hwr.1.2.2.2
      cases r
      simp only at hx
      rw [hx]
    simp only [List.nil_append, hre, Option.map_some']
    rw [show r :: (rest ++ [(⟨[], [], []⟩ : Rec)]) = (r :: rest) ++ [⟨[], [], []⟩] from rfl,
      List.dropLast_concat]

/-! ### The N50 computation: sorting and threshold lemmas -/

theorem mem_ordIns (le : Rec → Rec → Bool) (a x : Rec) :
    ∀ l, x ∈ ordIns le a l → x = a ∨ x ∈ l
  | [], h => by simpa [ordIns] using h
  | b :: l, h => by
    by_cases hc : le a b
    · rw [ordIns, if_pos hc] at h
      rcases List.mem_cons.mp h with rfl | h
      · exact Or.inl rfl
      · exact Or.inr h
    · rw [ordIns, if_neg hc] at h
      rcases List.mem_cons.mp h with rfl | h
      · exact Or.inr (List.mem_cons_self _ _)
      · rcases mem_ordIns le a x l h with h | h
        · exact Or.inl h
        · exact Or.inr (List.mem_cons_of_mem _ h)

theorem mem_insSort (le : Rec → Rec → Bool) (x : Rec) :
    ∀ l, x ∈ insSort le l → x ∈ l
  | a :: l, h => by
    rcases mem_ordIns le a x (insSort le l) h with rfl | h
    · exact List.mem_cons_self _ _
    · exact List.mem_cons_of_mem _ (mem_insSort le x l h)

theorem ordIns_perm (le : Rec → Rec → Bool) (a : Rec) :
    ∀ l, (ordIns le a l).Perm (a :: l)
  | [] => List.Perm.refl _
  | b :: l => by
    by_cases hc : le a b
    · rw [ordIns, if_pos hc]
    · rw [ordIns, if_neg hc]
      exact ((ordIns_perm le a l).cons b).trans (List.Perm.swap a b l)

theorem insSort_perm (le : Rec → Rec → Bool) :
    ∀ l, (insSort le l).Perm l
  | [] => List.Perm.refl _
  | a :: l => (ordIns_perm le a (insSort le l)).trans ((insSort_perm le l).cons a)

theorem ordIns_map (f : Rec → Rec) (le1 le2 : Rec → Rec → Bool) (P : Rec → Prop)
    (hle : ∀ a b, P a → P b → le2 (f a) (f b) = le1 a b) :
    ∀ (l : List Rec) (a : Rec), P a → (∀ x ∈ l, P x) →
      ordIns le2 (f a) (l.map f) = (ordIns le1 a l).map f
  | [], a, _, _ => rfl
  | b :: l, a, ha, hl => by
    have hb : P b := hl b (List.mem_cons_self b l)
    have hcond : le2 (f a) (f b) = le1 a b := hle a b ha hb
    by_cases hc : le1 a b
    · simp only [List.map_cons, ordIns, hcond, if_pos hc]
    · simp only [List.map_cons, ordIns, hcond, if_neg hc]
      rw [ordIns_map f le1 le2 P hle l a ha fun x hx => hl x (List.mem_cons_of_mem _ hx)]

theorem insSort_map (f : Rec → Rec) (le1 le2 : Rec → Rec → Bool) (P : Rec → Prop)
    (hle : ∀ a b, P a → P b → le2 (f a) (f b) = le1 a b) :
    ∀ l : List Rec, (∀ x ∈ l, P x) →
      insSort le2 (l.map f) = (insSort le1 l).map f
  | [], _ => rfl
  | a :: l, hl => by
    have ha : P a := hl a (List.mem_cons_self a l)
    have htail : ∀ x ∈ l, P x := fun x hx => hl x (List.mem_cons_of_mem _ hx)
    show ordIns le2 (f a) (insSort le2 (l.map f)) = _
    rw [insSort_map f le1 le2 P hle l htail,
      ordIns_map f le1 le2 P hle (insSort le1 l) a ha
        fun x hx => htail x (mem_insSort le1 x l hx)]
    rfl

theorem n50FindK_map (f : Rec → Rec) (k1 k2 : Rec → Nat) (P : Rec → Prop)
    (hk : ∀ x, P x → k2 (f x) = k1 x) :
    ∀ (l : List Rec) (total acc : Nat), (∀ x ∈ l, P x) →
      n50FindK k2 (l.map f) total acc = (n50FindK k1 l total acc).map f
  | [], _, _, _ => rfl
  | r :: l, total, acc, hl => by
    have hr : k2 (f r) = k1 r := hk r (hl r (List.mem_cons_self r l))
    by_cases hc : total < 2 * (acc + k1 r)
    · simp only [List.map_cons, n50FindK, hr, if_pos hc, Option.map_some']
    · simp only [List.map_cons, n50FindK, hr, if_neg hc]
      exact n50FindK_map f k1 k2 P hk l total (acc + k1 r)
        fun x hx => hl x (List.mem_cons_of_mem _ hx)

theorem n50FindK_mem (k : Rec → Nat) :
    ∀ (l : List Rec) (total acc : Nat) (r : Rec),
      n50FindK k l total acc = some r → r ∈ l
  | [], _, _, _, h => by simp [n50FindK] at h
  | x :: l, total, acc, r, h => by
    by_cases hc : total < 2 * (acc + k x)
    · rw [n50FindK, if_pos hc] at h
      exact (Option.some.inj h) ▸ List.mem_cons_self x l
    · rw [n50FindK, if_neg hc] at h
      exact List.mem_cons_of_mem _ (n50FindK_mem k l total (acc + k x) r h)

theorem n50FindK_isSome (k : Rec → Nat) :
    ∀ (l : List Rec) (total acc : Nat), 2 * acc ≤ total →
      total < 2 * (acc + (l.map k).sum) → (n50FindK k l total acc).isSome
  | [], total, acc, hle, hlt => by
    exfalso
    simp only [List.map_nil, List.sum_nil, Nat.add_zero] at hlt
    omega
  | r :: l, total, acc, hle, hlt => by
    by_cases hc : total < 2 * (acc + k r)
    · rw [n50FindK, if_pos hc]
      rfl
    · rw [n50FindK, if_neg hc]
      refine n50FindK_isSome k l total (acc + k r) (by omega) ?_
      simp only [List.map_cons, List.sum_cons] at hlt
      omega

/-! ### The N50 action as the specification describes it

The following definitions are modelled from the spec's words (stable sort
by sequence length descending, running sum strictly exceeding half the
total, single `N50` report line), to be compared with `InfoN50` above. -/

/-- Spec: a record's sequence length. -/
def seqLen (r : Rec) : Nat := r.seq.length

/-- Spec: records sorted by length descending, ties in original order. -/
def specDesc (a b : Rec) : Bool := decide (seqLen b ≤ seqLen a)

/-- Spec: the total of all sequence lengths. -/
def specTotal (rs : List Rec) : Nat := (rs.map seqLen).sum

/-- Spec: the record at which the running sum of lengths (over the stable
descending order) first strictly exceeds `total / 2`. -/
def specN50Record (rs : List Rec) : Option Rec :=
  n50FindK seqLen (insSort specDesc rs) (specTotal rs) 0

/-- Spec: the single output line `N50<TAB><length><TAB><header>`. -/
def specN50Line (r : Rec) : PyStr :=
  pstr "N50\t" ++ natToPyStr (seqLen r) ++ pstr "\t" ++ r.header

theorem lastKey_annotate (r : Rec) : lastKey (annotateRec r) = r.seq.length := by
  simp [lastKey, annotateRec, List.getLastD_concat]

theorem extraKey_annotate {r : Rec} (h : r.extra = []) :
    extraKey (annotateRec r) = r.seq.length := by
  simp [extraKey, annotateRec, h]

/-- `InfoN50` refines the spec-side N50 computation on plain parsed
records. -/
theorem infoN50_eq_spec (rs : List Rec) (o : Options) (hx : ∀ r ∈ rs, r.extra = []) :
    InfoN50 rs o =
      match specN50Record rs with
      | some r => .exited (rs.map annotateRec) [specN50Line r]
      | none => .ok (rs.map annotateRec) := by
  have htot : ((rs.map annotateRec).map lastKey).sum = specTotal rs := by
    rw [List.map_map]
    unfold specTotal
    congr 1
    exact List.map_congr_left fun r _ => lastKey_annotate r
  have hsort : insSort n50Desc (rs.map annotateRec) =
      (insSort specDesc rs).map annotateRec :=
    insSort_map annotateRec specDesc n50Desc (fun r => r.extra = [])
      (fun a b ha hb => by
        simp [n50Desc, specDesc, extraKey_annotate ha, extraKey_annotate hb, seqLen])
      rs hx
  have hfind : n50FindK extraKey ((insSort specDesc rs).map annotateRec)
      (specTotal rs) 0 =
      (n50FindK seqLen (insSort specDesc rs) (specTotal rs) 0).map annotateRec :=
    n50FindK_map annotateRec seqLen extraKey (fun r => r.extra = [])
      (fun x hxx => by simp [extraKey_annotate hxx, seqLen])
      (insSort specDesc rs) (specTotal rs) 0
      fun x hxx => hx x (mem_insSort specDesc x rs hxx)
  unfold InfoN50
  dsimp only
  rw [htot, hsort, hfind]
  unfold specN50Record
  cases hf : n50FindK seqLen (insSort specDesc rs) (specTotal rs) 0 with
  | none => rfl
  | some r =>
    have hr : r.extra = [] :=
      hx r (mem_insSort specDesc r rs (n50FindK_mem seqLen _ _ _ r hf))
    simp only [Option.map_some']
    have : n50LineOf (annotateRec r) = specN50Line r := by
      unfold n50LineOf specN50Line
      rw [extraKey_annotate hr]
      rfl
    rw [this]

/-- The spec-side N50 record exists whenever the total length is positive. -/
theorem specN50Record_isSome (rs : List Rec) (ht : 0 < specTotal rs) :
    (specN50Record rs).isSome := by
  unfold specN50Record
  refine n50FindK_isSome seqLen (insSort specDesc rs) (specTotal rs) 0 (by omega) ?_
  have hperm : ((insSort specDesc rs).map seqLen).Perm (rs.map seqLen) :=
    (insSort_perm specDesc rs).map seqLen
  rw [Nat.zero_add, hperm.sum_eq]
  show specTotal rs < 2 * specTotal rs
  omega

/-! ### The event trace of `InfoN50` (first loop mutates, second loop prints) -/

/-- One observable step of `InfoN50`: an in-place update of entry `i`, a
write to standard output, or `exit(0)`. -/
inductive N50Ev where
  | mutate (i : Nat) (r : Rec)
  | out (line : PyStr)
  | exit0
deriving DecidableEq

/-- The first loop of `InfoN50`: entry `i` is replaced, in order, by its
annotated form (`.append(len(...))`). -/
def mutEvents : Nat → List Rec → List N50Ev
  | _, [] => []
  | i, r :: rest => .mutate i (annotateRec r) :: mutEvents (i + 1) rest

/-- The second loop of `InfoN50`: the print of the `N50` line and the
`exit(0)`, if some entry crosses the threshold. -/
def n50OutEvents (rs : List Rec) : List N50Ev :=
  let ann := rs.map annotateRec
  let total := (ann.map lastKey).sum
  match n50FindK extraKey (insSort n50Desc ann) total 0 with
  | some r => [.out (n50LineOf r), .exit0]
  | none => []

/-- The full event trace of one `InfoN50` run: all mutations, then the
output events. -/
def InfoN50Trace (rs : List Rec) : List N50Ev :=
  mutEvents 0 rs ++ n50OutEvents rs

/-- Effect of one event on the entry list. -/
def applyEv (st : List Rec) : N50Ev → List Rec
  | .mutate i r => st.set i r
  | _ => st

def isMutEv : N50Ev → Bool
  | .mutate _ _ => true
  | _ => false

def isOutEv : N50Ev → Bool
  | .out _ => true
  | _ => false

theorem mutEvents_all_mut : ∀ (i : Nat) (rs : List Rec),
    ∀ e ∈ mutEvents i rs, isMutEv e = true
  | _, [], _, h => by simp [mutEvents] at h
  | i, r :: rest, e, h => by
    rcases List.mem_cons.mp h with rfl | h
    · rfl
    · exact mutEvents_all_mut (i + 1) rest e h

theorem mutEvents_no_out : ∀ (i : Nat) (rs : List Rec),
    ∀ e ∈ mutEvents i rs, isOutEv e = false
  | _, [], _, h => by simp [mutEvents] at h
  | i, r :: rest, e, h => by
    rcases List.mem_cons.mp h with rfl | h
    · rfl
    · exact mutEvents_no_out (i + 1) rest e h

theorem n50OutEvents_no_mut (rs : List Rec) :
    ∀ e ∈ n50OutEvents rs, isMutEv e = false := by
  intro e h
  unfold n50OutEvents at h
  dsimp only at h
  split at h
  · rcases List.mem_cons.mp h with rfl | h
    · rfl
    · rcases List.mem_singleton.mp h with rfl
      rfl
  · simp at h

theorem set_len_append : ∀ (pre : List Rec) (x r : Rec) (rest : List Rec),
    (pre ++ r :: rest).set pre.length x = pre ++ x :: rest
  | [], x, r, rest => rfl
  | p :: pre, x, r, rest => by
    simp only [List.cons_append, List.length_cons, List.set_cons_succ]
    rw [set_len_append pre x r rest]

theorem foldl_mutEvents : ∀ (rs pre : List Rec),
    (mutEvents pre.length rs).foldl applyEv (pre ++ rs) = pre ++ rs.map annotateRec
  | [], pre => by simp [mutEvents]
  | r :: rest, pre => by
    simp only [mutEvents, List.foldl_cons, applyEv, set_len_append]
    have e1 : pre ++ annotateRec r :: rest = (pre ++ [annotateRec r]) ++ rest := by simp
    have e2 : pre.length + 1 = (pre ++ [annotateRec r]).length := by simp
    rw [e1, e2, foldl_mutEvents rest (pre ++ [annotateRec r])]
    simp

theorem foldl_no_mut : ∀ (evs : List N50Ev) (st : List Rec),
    (∀ e ∈ evs, isMutEv e = false) → evs.foldl applyEv st = st
  | [], _, _ => rfl
  | e :: evs, st, h => by
    have he : isMutEv e = false := h e (List.mem_cons_self e evs)
    have hst : applyEv st e = st := by
      cases e with
      | mutate i r => simp [isMutEv] at he
      | out l => rfl
      | exit0 => rfl
    rw [List.foldl_cons, hst,
      foldl_no_mut evs st fun x hx => h x (List.mem_cons_of_mem _ hx)]

theorem infoN50Trace_foldl (rs : List Rec) :
    (InfoN50Trace rs).foldl applyEv rs = rs.map annotateRec := by
  unfold InfoN50Trace
  rw [List.foldl_append]
  have h0 : (mutEvents ([] : List Rec).length rs).foldl applyEv (([] : List Rec) ++ rs) =
      ([] : List Rec) ++ rs.map annotateRec := foldl_mutEvents rs []
  simp only [List.length_nil, List.nil_append] at h0
  rw [h0]
  exact foldl_no_mut _ _ (n50OutEvents_no_mut rs)

/-! ### Misc helpers for the claims -/

/-- Is a raw line a header line (`line[0] == '>'`, `false` for the empty
line)? -/
def isHeaderLine (l : PyStr) : Bool :=
  match l with
  | [] => false
  | c :: _ => c = '>'

theorem fastaLoop_empty_line (rest : List PyStr) (entries : List Rec)
    (accu : List PyStr) : fastaLoop ([] :: rest) entries accu = none := rfl

theorem fastaLoop_flush_noentries (cs : PyStr) (rest : List PyStr)
    (a : PyStr) (acc : List PyStr) :
    fastaLoop (('>' :: cs) :: rest) [] (a :: acc) = none := by
  simp [fastaLoop]

theorem fastaLoop_noheader : ∀ (lines : List PyStr) (accu : List PyStr),
    (∀ l ∈ lines, isHeaderLine l = false) → (accu = [] → lines ≠ []) →
    fastaLoop (lines ++ [['>', '\n']]) [] accu = none
  | [], accu, _, hne => by
    cases accu with
    | nil => exact absurd rfl (hne rfl)
    | cons a acc =>
      rw [List.nil_append, show (['>', '\n'] : PyStr) = '>' :: ['\n'] from rfl]
      exact fastaLoop_flush_noentries ['\n'] [] a acc
  | line :: rest, accu, hnh, _ => by
    cases line with
    | nil => exact fastaLoop_empty_line _ _ _
    | cons c cs =>
      have hc : ¬ c = '>' := by
        have := hnh (c :: cs) (List.mem_cons_self _ _)
        simpa [isHeaderLine] using this
      rw [List.cons_append, fastaLoop_seqline _ _ _ _ _ hc]
      exact fastaLoop_noheader rest (accu ++ [c :: cs])
        (fun l hl => hnh l (List.mem_cons_of_mem _ hl)) (by simp)

theorem renumFrom_getElem? (p : PyStr) : ∀ (rs : List Rec) (n i : Nat),
    (renumFrom p n rs)[i]? =
      rs[i]?.map fun r => (⟨p ++ natToPyStr (n + i), r.seq, r.extra⟩ : Rec)
  | [], n, i => by simp [renumFrom]
  | r :: rest, n, 0 => by simp [renumFrom]
  | r :: rest, n, i + 1 => by
    simp only [renumFrom, List.getElem?_cons_succ]
    rw [renumFrom_getElem? p rest (n + 1) i]
    have e : n + 1 + i = n + (i + 1) := by omega
    rw [e]

theorem find?_ACTIONS_none {action : String}
    (h : ∀ kv ∈ ACTIONS, kv.1 ≠ action) :
    ACTIONS.find? (fun kv => kv.1 == action) = none :=
  List.find?_eq_none.mpr fun kv hkv => by simpa using h kv hkv

theorem renumFrom_length (p : PyStr) : ∀ (rs : List Rec) (n : Nat),
    (renumFrom p n rs).length = rs.length
  | [], _ => rfl
  | r :: rest, n => by
    simp only [renumFrom, List.length_cons]
    rw [renumFrom_length p rest (n + 1)]

/-- Unfolding of `runMain` on the standard path: input parses, no filter
list, the action is found in the registry. -/
theorem runMain_found (action key : String) (g : List Rec → Options → ActionOut)
    (L : List PyStr) (outGiven : Bool) (rs : List Rec)
    (hp : fastaReader L = some rs)
    (hfind : ACTIONS.find? (fun kv => kv.1 == action) = some (key, g)) :
    runMain action L none outGiven none =
      match g rs ⟨some [], some (pstr "seq")⟩ with
      | .err => ⟨1, rs, [], false, [], outGiven⟩
      | .exited recs out => ⟨0, recs, out, false, [], outGiven⟩
      | .ok recs => ⟨0, recs, [], true, writeFasta recs, outGiven⟩ := by
  unfold runMain
  rw [hp, hfind]
  rfl

/-! ### Claims -/

/-- C1 counterexample: the input `>a` (one record, empty sequence) gives a
non-empty RecordSet with total length 0; `InfoN50` falls through without
printing the `N50` line or exiting, and the Writer IS invoked afterwards. -/
theorem claim1_counterexample :
    fastaReader [pstr ">a\n"] = some [⟨pstr "a", [], []⟩] ∧
    (runMain "N50" [pstr ">a\n"] none false none).report = [] ∧
    (runMain "N50" [pstr ">a\n"] none false none).writerInvoked = true := by
  decide

/-- C1 (amended): for every parsed RecordSet whose total sequence length is
positive, the `N50` action sorts by length descending (stable), takes the
first record whose running sum strictly exceeds `total / 2`, emits exactly
the one line `N50<TAB><length><TAB><header>` of that record, and exits so
the Writer is never invoked (on a RecordSet of total length 0 the action
instead falls through and the Writer runs). -/
theorem claim1_n50_amended (L : List PyStr) (rs : List Rec) (outGiven : Bool)
    (hp : fastaReader L = some rs) (ht : 0 < specTotal rs) :
    ∃ r, specN50Record rs = some r ∧
      runMain "N50" L none outGiven none =
        ⟨0, rs.map annotateRec, [specN50Line r], false, [], outGiven⟩ := by
  have hx : ∀ x ∈ rs, x.extra = [] := fun x hxx => (fastaReader_inv hp x hxx).2.2.2
  obtain ⟨r, hr⟩ := Option.isSome_iff_exists.mp (specN50Record_isSome rs ht)
  refine ⟨r, hr, ?_⟩
  rw [runMain_found "N50" "N50" InfoN50 L outGiven rs hp rfl]
  rw [infoN50_eq_spec rs _ hx, hr]

/-- C1 witness: the spec's own example (`a`/ACGT, `b`/AC, `c`/ACGTACGT;
total 14, the record `c` of length 8 crosses 7 first). -/
theorem claim1_witness :
    ∃ r, specN50Record [⟨pstr "a", pstr "ACGT", []⟩, ⟨pstr "b", pstr "AC", []⟩,
        ⟨pstr "c", pstr "ACGTACGT", []⟩] = some r ∧
      runMain "N50" [pstr ">a\n", pstr "ACGT\n", pstr ">b\n", pstr "AC\n",
          pstr ">c\n", pstr "ACGTACGT\n"] none false none =
        ⟨0, ([⟨pstr "a", pstr "ACGT", []⟩, ⟨pstr "b", pstr "AC", []⟩,
          ⟨pstr "c", pstr "ACGTACGT", []⟩] : List Rec).map annotateRec,
          [specN50Line r], false, [], false⟩ :=
  claim1_n50_amended _ _ false (by decide) (by decide)

/-- C2 counterexample: the file content `>h\n\r>abc\n` parses to one record
`h` with sequence `>abc`; writing and re-parsing turns that sequence line
into a header line, so the round trip yields two different records. -/
theorem claim2_counterexample :
    fastaReader [pstr ">h\n", pstr "\r>abc\n"] = some [⟨pstr "h", pstr ">abc", []⟩] ∧
    roundTripParse [pstr ">h\n", pstr "\r>abc\n"] =
      some [⟨pstr "h", [], []⟩, ⟨pstr "abc", [], []⟩] ∧
    roundTripParse [pstr ">h\n", pstr "\r>abc\n"] ≠
      fastaReader [pstr ">h\n", pstr "\r>abc\n"] := by
  decide

/-- C2 (amended): `parse(write(parse(lines))) = parse(lines)` whenever the
parse succeeds, no parsed header contains an embedded newline (always true
for lines read from a real file) and no parsed sequence begins with the
marker character `>`. -/
theorem claim2_roundtrip_amended (L : List PyStr) (rs : List Rec)
    (hp : fastaReader L = some rs)
    (hh : ∀ r ∈ rs, '\n' ∉ r.header)
    (hs : ∀ r ∈ rs, r.seq.head? ≠ some '>') :
    roundTripParse L = fastaReader L := by
  unfold roundTripParse
  rw [hp]
  show fastaReader (toLines (writeFasta rs)) = some rs
  exact fastaReader_writeFasta rs fun r hr =>
    ⟨fastaReader_inv hp r hr, hh r hr, hs r hr⟩

/-- C2 witness: a concrete two-record file round-trips. -/
theorem claim2_witness :
    roundTripParse [pstr ">a\n", pstr "ACGT\n", pstr ">b\n", pstr "AC\n"] =
      fastaReader [pstr ">a\n", pstr "ACGT\n", pstr ">b\n", pstr "AC\n"] :=
  claim2_roundtrip_amended _ [⟨pstr "a", pstr "ACGT", []⟩, ⟨pstr "b", pstr "AC", []⟩]
    (by decide) (by decide) (by decide)

/-- C3 counterexample: with `--out` given, the unknown action `reverse`
exits non-zero, but the output file has already been opened for writing
(created/truncated) before the registry lookup. -/
theorem claim3_counterexample :
    (runMain "reverse" [pstr ">a\n", pstr "ACGT\n"] none true none).exitCode = 1 ∧
    (runMain "reverse" [pstr ">a\n", pstr "ACGT\n"] none true none).outputFileCreated
      = true := by
  decide

/-- C3 (amended): an action identifier not in `ACTIONS` makes the run fail
(uncaught KeyError, exit code 1) with the RecordSet untransformed, the
Writer never invoked and no record text written; however, when an output
path was given, the file was already opened (created/truncated) before the
lookup, so an empty output file is left behind. -/
theorem claim3_unknown_action_amended (action : String) (L : List PyStr)
    (outGiven : Bool) (rs : List Rec)
    (ha : ∀ kv ∈ ACTIONS, kv.1 ≠ action) (hp : fastaReader L = some rs) :
    runMain action L none outGiven none = ⟨1, rs, [], false, [], outGiven⟩ := by
  unfold runMain
  rw [hp, find?_ACTIONS_none ha]

/-- C3 witness: the unknown action `reverse` on a one-record input. -/
theorem claim3_witness :
    runMain "reverse" [pstr ">a\n", pstr "ACGT\n"] none true none =
      ⟨1, [⟨pstr "a", pstr "ACGT", []⟩], [], false, [], true⟩ :=
  claim3_unknown_action_amended "reverse" _ true _ (by decide) (by decide)

/-- C4 counterexample: uppercasing then lowercasing the mixed-case sequence
`Ac` yields `ac`, not the original casing. -/
theorem claim4_counterexample :
    EntryLowercase
      (recordsOf (EntryUppercase [⟨pstr "h", pstr "Ac", []⟩]
        ⟨some [], some (pstr "seq")⟩)) ⟨some [], some (pstr "seq")⟩ ≠
      ActionOut.ok [⟨pstr "h", pstr "Ac", []⟩] := by
  decide

/-- C4 (amended): Uppercase followed by Lowercase maps every sequence to
its lowercase form (so the original casing is restored exactly when the
original sequence was already lowercase); headers, `extra` cells and the
record count are unchanged. -/
theorem claim4_upper_lower_amended (rs : List Rec) (o1 o2 : Options) :
    EntryLowercase (recordsOf (EntryUppercase rs o1)) o2 =
      .ok (rs.map fun r => ⟨r.header, r.seq.map Char.toLower, r.extra⟩) ∧
    (recordsOf (EntryLowercase (recordsOf (EntryUppercase rs o1)) o2)).length
      = rs.length := by
  have hcomp : ∀ s : PyStr, (s.map Char.toUpper).map Char.toLower = s.map Char.toLower := by
    intro s
    rw [List.map_map]
    exact List.map_congr_left fun c _ => toLower_toUpper c
  constructor
  · simp only [EntryUppercase, EntryLowercase, recordsOf, List.map_map]
    congr 1
    apply List.map_congr_left
    intro r _
    simp only [Function.comp]
    rw [hcomp]
  · simp [EntryUppercase, EntryLowercase, recordsOf]

/-- C5 counterexample: `Keep` with a present-but-empty filter set is not a
no-op: it empties the RecordSet. -/
theorem claim5_counterexample :
    ListKeep [⟨pstr "a", pstr "x", []⟩] ⟨some [], some (pstr "seq")⟩ ≠
      ActionOut.ok [⟨pstr "a", pstr "x", []⟩] := by
  decide

/-- C5 (amended): with the empty filter dict (the orchestrator's default
when `--list` is absent), `Remove` is a no-op returning the RecordSet
unchanged and raising no error, while `Keep` returns the empty RecordSet
(keeping nothing), also without error. -/
theorem claim5_empty_filter_amended (rs : List Rec) (p : Option PyStr) :
    ListRemove rs ⟨some [], p⟩ = .ok rs ∧ ListKeep rs ⟨some [], p⟩ = .ok [] := by
  constructor
  · simp [ListRemove]
  · simp [ListKeep]

/-- C6 counterexample: the header-less input `abc` does not yield an empty
RecordSet: the parser raises (IndexError on `fasta_entries[-1]`). -/
theorem claim6_counterexample : fastaReader [pstr "abc\n"] ≠ some [] := by
  decide

/-- C6 (amended): empty input parses to the empty RecordSet; but any
non-empty input with no header line makes the parser fail (the dummy
terminator line tries to flush the accumulator into `fasta_entries[-1]`,
which does not exist) instead of returning an empty RecordSet. -/
theorem claim6_no_header_amended :
    fastaReader [] = some [] ∧
    ∀ lines : List PyStr, lines ≠ [] →
      (∀ l ∈ lines, isHeaderLine l = false) → fastaReader lines = none := by
  refine ⟨rfl, ?_⟩
  intro lines hne hnh
  unfold fastaReader
  rw [fastaLoop_noheader lines [] hnh fun _ => hne]
  rfl

/-- C6 witness: the single sequence-like line `abc` makes the parse fail. -/
theorem claim6_witness : fastaReader [pstr "abc\n"] = none :=
  claim6_no_header_amended.2 [pstr "abc\n"] (by decide) (by decide)

/-- C7: evaluation of the reader and the filter-list loader at the failing
inputs: a zero-length line makes `fasta_reader` raise IndexError at
`line[0]`, and a blank filter-list line (stripping to the empty string)
makes `load_filter_dict` raise IndexError at `filter_item[0]`. -/
theorem claim7_blank_line_bug :
    fastaReader [([] : PyStr)] = none ∧
    fastaReader [pstr ">a\n", [], pstr "ACGT\n"] = none ∧
    loadFilterDict [pstr "\n"] = none ∧
    loadFilterDict [pstr "x\n", pstr "\n"] = none := by
  decide

/-- C8: `Renumerate` with prefix `p` keeps the record count, and the `i`-th
record (0-based) gets header `p + str(i + 1)` with its sequence and extra
cells untouched; order is positional, so it is preserved. -/
theorem claim8_renumerate (rs : List Rec) (p : PyStr) (fd : Option (List PyStr)) :
    EntryRenumerate rs ⟨fd, some p⟩ = .ok (renumFrom p 1 rs) ∧
    (renumFrom p 1 rs).length = rs.length ∧
    ∀ (i : Nat) (r : Rec), rs[i]? = some r →
      (renumFrom p 1 rs)[i]? = some ⟨p ++ natToPyStr (i + 1), r.seq, r.extra⟩ := by
  refine ⟨rfl, renumFrom_length p rs 1, ?_⟩
  intro i r hir
  rw [renumFrom_getElem? p rs 1 i, hir]
  simp [Nat.add_comm]

/-- C8 witness: with prefix `seq` on three records the headers become
`seq1`, `seq2`, `seq3` in original order, sequences unchanged. -/
theorem claim8_witness :
    (renumFrom (pstr "seq") 1 [⟨pstr "a", pstr "ACGT", []⟩, ⟨pstr "b", pstr "AC", []⟩,
        ⟨pstr "c", pstr "GG", []⟩])[1]? =
      some ⟨pstr "seq" ++ natToPyStr 2, pstr "AC", []⟩ :=
  (claim8_renumerate [⟨pstr "a", pstr "ACGT", []⟩, ⟨pstr "b", pstr "AC", []⟩,
    ⟨pstr "c", pstr "GG", []⟩] (pstr "seq") none).2.2 1 ⟨pstr "b", pstr "AC", []⟩ (by decide)

/-- C9: for a filter set `F` contained in the present headers, `Keep(F)`
equals `Remove(complement of F relative to the present headers)`. -/
theorem claim9_keep_remove_complement (rs : List Rec) (F : List PyStr)
    (p : Option PyStr) (hF : ∀ a ∈ F, a ∈ rs.map Rec.header) :
    ListKeep rs ⟨some F, p⟩ =
      ListRemove rs ⟨some ((rs.map Rec.header).filter fun x => decide (x ∉ F)), p⟩ := by
  simp only [ListKeep, ListRemove]
  congr 1
  apply List.filter_congr
  intro r hr
  have hmem : r.header ∈ rs.map Rec.header := List.mem_map_of_mem Rec.header hr
  simp only [decide_eq_decide, List.mem_filter, hmem, true_and]
  simp only [decide_eq_true_eq]
  tauto

/-- C9 witness: two records, keeping `a` versus removing its complement. -/
theorem claim9_witness :
    ListKeep [⟨pstr "a", pstr "A", []⟩, ⟨pstr "b", pstr "C", []⟩]
      ⟨some [pstr "a"], none⟩ =
    ListRemove [⟨pstr "a", pstr "A", []⟩, ⟨pstr "b", pstr "C", []⟩]
      ⟨some ((([⟨pstr "a", pstr "A", []⟩, ⟨pstr "b", pstr "C", []⟩] : List Rec).map
        Rec.header).filter fun x => decide (x ∉ [pstr "a"])), none⟩ :=
  claim9_keep_remove_complement _ [pstr "a"] none (by decide)

/-- C10: on a RecordSet of plain parsed records, the `N50` trace first
replaces every record `i`, in order, by the record with its length appended
as a third cell (so no record is a plain header/sequence pair afterwards:
`extra = [len]`), the mutated state persists in the action result, and
every output event in the trace occurs strictly after every mutation
event. -/
theorem claim10_n50_mutation (rs : List Rec) (hx : ∀ r ∈ rs, r.extra = []) :
    (InfoN50Trace rs).foldl applyEv rs = rs.map annotateRec ∧
    (∀ r ∈ rs.map annotateRec, r.extra = [r.seq.length]) ∧
    (∀ o : Options, recordsOf (InfoN50 rs o) = rs.map annotateRec) ∧
    (∀ i j : Nat, ∀ eo em : N50Ev,
      (InfoN50Trace rs)[i]? = some eo → isOutEv eo = true →
      (InfoN50Trace rs)[j]? = some em → isMutEv em = true → j < i) := by
  refine ⟨infoN50Trace_foldl rs, ?_, ?_, ?_⟩
  · intro r hr
    rcases List.mem_map.mp hr with ⟨x, hxm, rfl⟩
    simp [annotateRec, hx x hxm]
  · intro o
    unfold InfoN50
    dsimp only
    split
    · rfl
    · rfl
  · intro i j eo em hio hoo him hmm2
    unfold InfoN50Trace at hio him
    have hi_ge : ¬ i < (mutEvents 0 rs).length := by
      intro hlt
      rw [List.getElem?_append_left hlt] at hio
      have : isOutEv eo = false := mutEvents_no_out 0 rs eo (List.getElem?_mem hio)
      rw [this] at hoo
      exact absurd hoo (by simp)
    have hj_lt : j < (mutEvents 0 rs).length := by
      by_contra hge
      have hge' : (mutEvents 0 rs).length ≤ j := Nat.not_lt.mp hge
      rw [List.getElem?_append_right hge'] at him
      have : isMutEv em = false := n50OutEvents_no_mut rs em (List.getElem?_mem him)
      rw [this] at hmm2
      exact absurd hmm2 (by simp)
    omega

/-- C10 witness: the single record `a`/`AC` is annotated in place before
any output. -/
theorem claim10_witness :
    (InfoN50Trace [⟨pstr "a", pstr "AC", []⟩]).foldl applyEv
        [⟨pstr "a", pstr "AC", []⟩] =
      ([⟨pstr "a", pstr "AC", []⟩] : List Rec).map annotateRec :=
  (claim10_n50_mutation [⟨pstr "a", pstr "AC", []⟩] (by decide)).1

end Tfam
